import Mathlib

/-! A shallow embedding of the exploration-and-verification orchestrator in
`src/src/halmos/__main__.py`: the frontier exploration engine
(`_compute_frontier`, `get_frontier`), the target invocation runner
(`run_target_contract`), the per-test driver loop and result aggregation
(`run_test`), and the solver-completion callback
(`solve_end_to_end_callback`).  External collaborators (the `sevm`
interpreter, the SMT solver, ABI metadata) are modelled as oracles
producing opaque data, cut exactly at the interface boundaries visible in
the source. -/

/-- Result of one SMT solver invocation (`SolverOutput.result` as compared
via `str(m.result)` against "sat"/"unknown" in `run_test`, and against
`unsat` elsewhere). -/
inductive SmtResult
  | sat
  | unsat
  | unknown
  deriving DecidableEq

/-- The fixed `Exitcode` enumeration of `__main__.py` (lines 143-149). -/
inductive Exitcode
  | PASS
  | COUNTEREXAMPLE
  | TIMEOUT
  | STUCK
  | REVERT_ALL
  | EXCEPTION
  deriving DecidableEq

/-- Numeric value of each `Exitcode` member, as declared in the source. -/
def Exitcode.value : Exitcode → Nat
  | .PASS => 0
  | .COUNTEREXAMPLE => 1
  | .TIMEOUT => 2
  | .STUCK => 3
  | .REVERT_ALL => 4
  | .EXCEPTION => 5

/-- `Counter(str(m.result) for m in ctx.solver_outputs)[r]`: the number of
collected solver outputs whose result is `r`. -/
def resultCount (outputs : List SmtResult) (r : SmtResult) : Nat :=
  (outputs.filter (fun m => m = r)).length

/-- The verdict classification of `run_test` (lines 903-922): the
`counter["sat"] > 0 / counter["unknown"] > 0 / len(stuck) > 0 /
normal == 0` cascade, where `numStuck = len(stuck)` and
`numNormal = normal`. -/
def classifyVerdict (solverOutputs : List SmtResult) (numStuck numNormal : Nat) :
    Exitcode :=
  if resultCount solverOutputs .sat > 0 then .COUNTEREXAMPLE
  else if resultCount solverOutputs .unknown > 0 then .TIMEOUT
  else if numStuck > 0 then .STUCK
  else if numNormal = 0 then .REVERT_ALL
  else .PASS

theorem resultCount_pos_iff (outputs : List SmtResult) (r : SmtResult) :
    resultCount outputs r > 0 ↔ ∃ m ∈ outputs, m = r := by
  simp only [resultCount, gt_iff_lt, List.length_pos, ne_eq, List.filter_eq_nil_iff,
    decide_eq_true_eq, not_forall]
  constructor
  · rintro ⟨m, hm, hr⟩
    exact ⟨m, hm, by simpa using hr⟩
  · rintro ⟨m, hm, hr⟩
    exact ⟨m, hm, by simpa using hr⟩

/-- C1: the verdict of a completed `run_test` is classified over the
collected solver outputs in priority order (any `sat` result gives
COUNTEREXAMPLE; else any `unknown` gives TIMEOUT; else any recorded stuck
path gives STUCK; else zero normal paths gives REVERT_ALL; else PASS), and
the exit codes are the fixed enumeration PASS=0, COUNTEREXAMPLE=1,
TIMEOUT=2, STUCK=3, REVERT_ALL=4, EXCEPTION=5. -/
theorem run_test_verdict_classification (outs : List SmtResult)
    (numStuck numNormal : Nat) :
    (classifyVerdict outs numStuck numNormal =
      if ∃ m ∈ outs, m = SmtResult.sat then Exitcode.COUNTEREXAMPLE
      else if ∃ m ∈ outs, m = SmtResult.unknown then Exitcode.TIMEOUT
      else if numStuck > 0 then Exitcode.STUCK
      else if numNormal = 0 then Exitcode.REVERT_ALL
      else Exitcode.PASS)
    ∧ Exitcode.PASS.value = 0 ∧ Exitcode.COUNTEREXAMPLE.value = 1
    ∧ Exitcode.TIMEOUT.value = 2 ∧ Exitcode.STUCK.value = 3
    ∧ Exitcode.REVERT_ALL.value = 4 ∧ Exitcode.EXCEPTION.value = 5 := by
  refine ⟨?_, rfl, rfl, rfl, rfl, rfl, rfl⟩
  unfold classifyVerdict
  by_cases h1 : ∃ m ∈ outs, m = SmtResult.sat
  · rw [if_pos ((resultCount_pos_iff outs SmtResult.sat).mpr h1), if_pos h1]
  · rw [if_neg (fun hc => h1 ((resultCount_pos_iff outs SmtResult.sat).mp hc)),
      if_neg h1]
    by_cases h2 : ∃ m ∈ outs, m = SmtResult.unknown
    · rw [if_pos ((resultCount_pos_iff outs SmtResult.unknown).mpr h2), if_pos h2]
    · rw [if_neg (fun hc => h2 ((resultCount_pos_iff outs SmtResult.unknown).mp hc)),
        if_neg h2]

/-- A 256-bit timestamp-valued symbolic expression.  `ext i` is an opaque
externally-produced expression (e.g. the setup state's `block.timestamp`);
`freshTs depth u` is `ZeroExt(192, BitVec(name, 64))` for the fresh symbol
named `halmos_block_timestamp_depth{depth}_{uid}` created at line 609-610,
identified by its `(depth, uid)` name components. -/
inductive TsExpr
  | ext (id : Nat)
  | freshTs (depth uidv : Nat)
  deriving DecidableEq

/-- One accumulated path constraint.  `tsGe l r` is the z3 constraint
`l >= r` appended at line 611; `ext i` is an opaque externally-produced
constraint (from the interpreter / calldata collaborators). -/
inductive PathCond
  | tsGe (lhs rhs : TsExpr)
  | ext (id : Nat)
  deriving DecidableEq

/-- Value of a timestamp expression under a valuation of the symbols:
`se` interprets external expressions (as 256-bit words), `sf` interprets
the fresh 64-bit timestamp symbols by their `(depth, uid)` name; the
zero-extension to 256 bits means a fresh symbol evaluates to its 64-bit
value unchanged. -/
def TsExpr.eval (se : Nat → Nat) (sf : Nat → Nat → Nat) : TsExpr → Nat
  | .ext i => se i % 2 ^ 256
  | .freshTs d u => sf d u % 2 ^ 64

/-- Satisfaction of one path constraint under a valuation (`sc` decides
the opaque external constraints). -/
def PathCond.holds (se : Nat → Nat) (sf : Nat → Nat → Nat) (sc : Nat → Bool) :
    PathCond → Prop
  | .tsGe l r => TsExpr.eval se sf r ≤ TsExpr.eval se sf l
  | .ext i => sc i = true

/-- Satisfaction of an accumulated path. -/
def pathSat (se : Nat → Nat) (sf : Nat → Nat → Nat) (sc : Nat → Bool)
    (path : List PathCond) : Prop :=
  ∀ c ∈ path, c.holds se sf sc

/-- The attributes of a `sevm` `Exec` consumed by the frontier explorer:
the state-identity fingerprint (`get_state_id`, opaque bytes modelled as a
`Nat`), the call sequence (`call_sequence`, call contexts modelled as
opaque ids), the block timestamp (`block.timestamp`), and the accumulated
path constraints (`path`). -/
structure ExecM where
  stateId : Nat
  callSequence : List Nat
  timestamp : TsExpr
  path : List PathCond
  deriving DecidableEq

/-- Outcome classification of one post-state produced by
`run_target_contract`: the call got stuck (`subcall.is_stuck()`), reverted
(`subcall.output.error`, with the `is_panic_of(panic_error_codes)` flag and
the `fun_info` identity used by the probe registry), or completed
normally. -/
inductive PostKind
  | stuck
  | reverted (isPanicOfCodes : Bool) (funInfo : Nat)
  | success
  deriving DecidableEq

/-- One post-state as produced by the external interpreter for one target
call: its outcome kind, the new call context (`post_ex.context`), the path
constraints the call added beyond the predecessor's path (the source
builds the call's path with `path.extend_path(ex.path)`, so the post
state's sliced path is the predecessor's path followed by these), and the
state fingerprint `get_state_id(post_ex)` computed after `path_slice()`. -/
structure PostSpec where
  kind : PostKind
  subcall : Nat
  extraPath : List PathCond
  stateId : Nat
  deriving DecidableEq

/-- The mutable state threaded through one `_compute_frontier(ctx, depth)`
run: the visited fingerprint set, the probe registry
(`ctx.probes_reported`), the cache entry under construction (`next_exs`),
the process-wide `uid()` counter, and the states yielded so far. -/
structure FrontierStep where
  visited : List Nat
  probes : List Nat
  nextExs : List ExecM
  uidCounter : Nat
  yields : List ExecM
  deriving DecidableEq

/-- The frontier state appended for a new successful post-state (lines
605-611): the call sequence is the predecessor's extended by the new call
context, the timestamp is the fresh zero-extended 64-bit symbol named by
the depth and the current `uid()` value, and the path is the predecessor's
path extended by the call's own constraints and the constraint that the
new timestamp is at least the predecessor's. -/
def mkPostEx (depth : Nat) (preEx : ExecM) (st : FrontierStep)
    (p : PostSpec) : ExecM :=
  { stateId := p.stateId
    callSequence := preEx.callSequence ++ [p.subcall]
    timestamp := .freshTs depth st.uidCounter
    path := preEx.path ++ p.extraPath
      ++ [.tsGe (.freshTs depth st.uidCounter) preEx.timestamp] }

/-- Processing of one post-state by `_compute_frontier` (lines 560-615):
stuck states are logged and discarded; reverted states are discarded after
possibly reporting a probe (panic matching the configured codes, at a
`fun_info` not already reported); successful states are deduplicated by
fingerprint against the visited set, and when new are given the
predecessor's call sequence extended by the new call context, a fresh
symbolic timestamp constrained to be at least the predecessor's, and are
appended to the cache entry and yielded. -/
def processPost (depth : Nat) (preEx : ExecM) (st : FrontierStep)
    (p : PostSpec) : FrontierStep :=
  match p.kind with
  | .stuck => st
  | .reverted isPanic funInfo =>
      if isPanic = false then st
      else if funInfo ∈ st.probes then st
      else { st with probes := st.probes ++ [funInfo] }
  | .success =>
      if p.stateId ∈ st.visited then st
      else
        { visited := st.visited ++ [p.stateId]
          probes := st.probes
          nextExs := st.nextExs ++ [mkPostEx depth preEx st p]
          uidCounter := st.uidCounter + 1
          yields := st.yields ++ [mkPostEx depth preEx st p] }

/-- Processing of one predecessor state: run every target contract's
functions (the address loop over `pre_ex.code` minus `FOUNDRY_TEST` and the
function loop of `run_target_contract` are folded into the `runner` oracle)
and process each resulting post-state in order. -/
def processPre (runner : ExecM → List PostSpec) (depth : Nat)
    (st : FrontierStep) (preEx : ExecM) : FrontierStep :=
  (runner preEx).foldl (processPost depth preEx) st

/-- The whole post-state processing of `_compute_frontier` at a given
depth over the previous frontier `curr`. -/
def computeFrontierFrom (runner : ExecM → List PostSpec) (depth : Nat)
    (curr : List ExecM) (st : FrontierStep) : FrontierStep :=
  curr.foldl (processPre runner depth) st

/-- The per-contract exploration state (`ContractContext`): the frontier
cache `frontier_states` (an association list from depth to the
materialized entry), the visited set, the probe registry, and the
process-wide `uid()` counter. -/
structure ExploreCtx where
  frontierStates : List (Nat × List ExecM)
  visited : List Nat
  probesReported : List Nat
  uidCounter : Nat
  deriving DecidableEq

/-- Lookup of `ctx.frontier_states.get(depth)`. -/
def lookupFrontier : List (Nat × List ExecM) → Nat → Option (List ExecM)
  | [], _ => none
  | p :: rest, d => if p.1 = d then some p.2 else lookupFrontier rest d

/-- The materialized effect of fully consuming `_compute_frontier(ctx,
depth)`: read the previous frontier, process all its post-states, record
the finished entry in the cache, and return the yielded states together
with the updated exploration state. -/
def computeFrontier (runner : ExecM → List PostSpec) (ctx : ExploreCtx)
    (depth : Nat) : List ExecM × ExploreCtx :=
  let curr := (lookupFrontier ctx.frontierStates (depth - 1)).getD []
  let st := computeFrontierFrom runner depth curr
    { visited := ctx.visited
      probes := ctx.probesReported
      nextExs := []
      uidCounter := ctx.uidCounter
      yields := [] }
  (st.yields,
   { frontierStates := ctx.frontierStates ++ [(depth, st.nextExs)]
     visited := st.visited
     probesReported := st.probes
     uidCounter := st.uidCounter })

/-- `get_frontier(ctx, depth)` (lines 618-630): return the cached entry
directly when present, otherwise compute (and cache) it. -/
def get_frontier (runner : ExecM → List PostSpec) (ctx : ExploreCtx)
    (depth : Nat) : List ExecM × ExploreCtx :=
  match lookupFrontier ctx.frontierStates depth with
  | some frontier => (frontier, ctx)
  | none => computeFrontier runner ctx depth

/-- Modelled from the spec: the initial setup state (produced by
`setup`/`deploy_test` through the external `sevm` interpreter, whose `Exec`
construction is not part of this source unit) carries an empty call
sequence — "Depth 0 is exactly the singleton initial setup state", whose
call-sequence length is 0.  Its fingerprint, timestamp and path are opaque
parameters. -/
def setupExec (sid : Nat) (ts0 : TsExpr) (path0 : List PathCond) : ExecM :=
  { stateId := sid
    callSequence := []
    timestamp := ts0
    path := path0 }

/-- The exploration state right after `run_contract` seeds it (lines
1018-1020): `frontier_states[0] = [setup_ex]` and
`visited = {get_state_id(setup_ex)}`. -/
def initialCtx (setupEx : ExecM) (u0 : Nat) : ExploreCtx :=
  { frontierStates := [(0, [setupEx])]
    visited := [setupEx.stateId]
    probesReported := []
    uidCounter := u0 }

/-- The depth loop of `run_message` (line 648): fully consume
`get_frontier` for every depth from 0 up to `d`, threading the exploration
state. -/
def exploreTo (runner : ExecM → List PostSpec) (ctx : ExploreCtx) :
    Nat → ExploreCtx
  | 0 => (get_frontier runner ctx 0).2
  | d + 1 => (get_frontier runner (exploreTo runner ctx d) (d + 1)).2

/-- All state fingerprints stored across all frontier cache entries. -/
def allFrontierIds (ctx : ExploreCtx) : List Nat :=
  (ctx.frontierStates.map (fun p => p.2.map ExecM.stateId)).flatten

theorem foldl_preserve_mem {α β : Type} (f : β → α → β) (P : β → Prop)
    (l : List α) (h : ∀ b a, a ∈ l → P b → P (f b a)) :
    ∀ b, P b → P (l.foldl f b) := by
  induction l with
  | nil => intro b hb; exact hb
  | cons a rest ih =>
      intro b hb
      exact ih (fun b' a' ha' hb' => h b' a' (List.mem_cons_of_mem a ha') hb')
        (f b a) (h b a (List.mem_cons_self a rest) hb)

theorem processPost_stuck (depth : Nat) (preEx : ExecM) (st : FrontierStep)
    (p : PostSpec) (hk : p.kind = PostKind.stuck) :
    processPost depth preEx st p = st := by
  rcases p with ⟨k, sc, ep, sid⟩
  cases hk
  rfl

theorem processPost_seen (depth : Nat) (preEx : ExecM) (st : FrontierStep)
    (p : PostSpec) (hk : p.kind = PostKind.success)
    (hv : p.stateId ∈ st.visited) :
    processPost depth preEx st p = st := by
  rcases p with ⟨k, sc, ep, sid⟩
  cases hk
  simp only [processPost]
  exact if_pos hv

theorem processPost_new (depth : Nat) (preEx : ExecM) (st : FrontierStep)
    (p : PostSpec) (hk : p.kind = PostKind.success)
    (hv : p.stateId ∉ st.visited) :
    processPost depth preEx st p =
      { visited := st.visited ++ [p.stateId]
        probes := st.probes
        nextExs := st.nextExs ++ [mkPostEx depth preEx st p]
        uidCounter := st.uidCounter + 1
        yields := st.yields ++ [mkPostEx depth preEx st p] } := by
  rcases p with ⟨k, sc, ep, sid⟩
  cases hk
  simp only [processPost]
  exact if_neg hv

theorem processPost_cases (depth : Nat) (preEx : ExecM) (st : FrontierStep)
    (p : PostSpec) :
    processPost depth preEx st p = st ∨
    (∃ f, processPost depth preEx st p = { st with probes := st.probes ++ [f] }) ∨
    (p.kind = PostKind.success ∧ p.stateId ∉ st.visited ∧
      processPost depth preEx st p =
        { visited := st.visited ++ [p.stateId]
          probes := st.probes
          nextExs := st.nextExs ++ [mkPostEx depth preEx st p]
          uidCounter := st.uidCounter + 1
          yields := st.yields ++ [mkPostEx depth preEx st p] }) := by
  rcases hp : p.kind with _ | ⟨b, f⟩ | _
  · exact Or.inl (processPost_stuck depth preEx st p hp)
  · rcases p with ⟨k, sc, ep, sid⟩
    cases hp
    by_cases hb : b = false
    · exact Or.inl (by simp [processPost, hb])
    · by_cases hf : f ∈ st.probes
      · exact Or.inl (by simp [processPost, hb, hf])
      · exact Or.inr (Or.inl ⟨f, by simp [processPost, hb, hf]⟩)
  · by_cases hv : p.stateId ∈ st.visited
    · exact Or.inl (processPost_seen depth preEx st p hp hv)
    · exact Or.inr (Or.inr ⟨rfl, hv, processPost_new depth preEx st p hp hv⟩)

/-- Invariant carried through one `_compute_frontier` run: given the
fingerprints `prior` of all states already placed in earlier frontier
entries, the fingerprints of `prior` and of the entry under construction
are pairwise distinct, and all of them are in the visited set. -/
def stepIdsInv (prior : List Nat) (st : FrontierStep) : Prop :=
  (prior ++ st.nextExs.map ExecM.stateId).Nodup ∧
  ∀ i ∈ prior ++ st.nextExs.map ExecM.stateId, i ∈ st.visited

theorem processPost_stepIdsInv (prior : List Nat) (depth : Nat) (preEx : ExecM)
    (st : FrontierStep) (p : PostSpec) (h : stepIdsInv prior st) :
    stepIdsInv prior (processPost depth preEx st p) := by
  rcases processPost_cases depth preEx st p with heq | ⟨f, heq⟩ | ⟨hk, hv, heq⟩
  · rw [heq]; exact h
  · rw [heq]; exact h
  · rw [heq]
    rcases h with ⟨hnd, hmem⟩
    have hnotin : p.stateId ∉ prior ++ st.nextExs.map ExecM.stateId :=
      fun hin => hv (hmem _ hin)
    constructor
    · simp only [List.map_append, List.map_cons, List.map_nil, mkPostEx,
        ← List.append_assoc]
      rw [List.nodup_append]
      refine ⟨hnd, List.nodup_singleton _, ?_⟩
      intro x hx hx1
      rcases List.mem_singleton.mp hx1 with rfl
      exact hnotin hx
    · intro i hi
      simp only [List.map_append, List.map_cons, List.map_nil, mkPostEx,
        ← List.append_assoc, List.mem_append, List.mem_singleton] at hi
      rcases hi with hi | rfl
      · exact List.mem_append_left _ (hmem _ (List.mem_append.mpr hi))
      · exact List.mem_append_right _ (List.mem_singleton_self _)

theorem processPre_stepIdsInv (runner : ExecM → List PostSpec) (prior : List Nat)
    (depth : Nat) (st : FrontierStep) (preEx : ExecM) (h : stepIdsInv prior st) :
    stepIdsInv prior (processPre runner depth st preEx) :=
  foldl_preserve_mem (processPost depth preEx) (stepIdsInv prior) (runner preEx)
    (fun b a _ hb => processPost_stepIdsInv prior depth preEx b a hb) st h

theorem computeFrontierFrom_stepIdsInv (runner : ExecM → List PostSpec)
    (prior : List Nat) (depth : Nat) (curr : List ExecM) (st : FrontierStep)
    (h : stepIdsInv prior st) :
    stepIdsInv prior (computeFrontierFrom runner depth curr st) :=
  foldl_preserve_mem (processPre runner depth) (stepIdsInv prior) curr
    (fun b a _ hb => processPre_stepIdsInv runner prior depth b a hb) st h

/-- Invariant on the whole exploration state: fingerprints placed across
all frontier cache entries are pairwise distinct, and all of them are in
the visited set. -/
def ctxIdsInv (ctx : ExploreCtx) : Prop :=
  (allFrontierIds ctx).Nodup ∧ ∀ i ∈ allFrontierIds ctx, i ∈ ctx.visited

theorem allFrontierIds_computeFrontier (runner : ExecM → List PostSpec)
    (ctx : ExploreCtx) (depth : Nat) :
    allFrontierIds (computeFrontier runner ctx depth).2 =
      allFrontierIds ctx ++
        ((computeFrontierFrom runner depth
            ((lookupFrontier ctx.frontierStates (depth - 1)).getD [])
            { visited := ctx.visited
              probes := ctx.probesReported
              nextExs := []
              uidCounter := ctx.uidCounter
              yields := [] }).nextExs.map ExecM.stateId) := by
  simp [allFrontierIds, computeFrontier]

theorem computeFrontier_ctxIdsInv (runner : ExecM → List PostSpec)
    (ctx : ExploreCtx) (depth : Nat) (h : ctxIdsInv ctx) :
    ctxIdsInv (computeFrontier runner ctx depth).2 := by
  have hstep := computeFrontierFrom_stepIdsInv runner (allFrontierIds ctx) depth
    ((lookupFrontier ctx.frontierStates (depth - 1)).getD [])
    { visited := ctx.visited
      probes := ctx.probesReported
      nextExs := []
      uidCounter := ctx.uidCounter
      yields := [] }
    (by
      constructor
      · simpa using h.1
      · intro i hi
        exact h.2 i (by simpa using hi))
  constructor
  · rw [allFrontierIds_computeFrontier]
    exact hstep.1
  · intro i hi
    rw [allFrontierIds_computeFrontier] at hi
    exact hstep.2 i hi

theorem get_frontier_ctxIdsInv (runner : ExecM → List PostSpec)
    (ctx : ExploreCtx) (depth : Nat) (h : ctxIdsInv ctx) :
    ctxIdsInv (get_frontier runner ctx depth).2 := by
  unfold get_frontier
  cases lookupFrontier ctx.frontierStates depth with
  | some fr => exact h
  | none => exact computeFrontier_ctxIdsInv runner ctx depth h

theorem exploreTo_ctxIdsInv (runner : ExecM → List PostSpec)
    (ctx : ExploreCtx) (h : ctxIdsInv ctx) :
    ∀ d, ctxIdsInv (exploreTo runner ctx d)
  | 0 => get_frontier_ctxIdsInv runner ctx 0 h
  | d + 1 => get_frontier_ctxIdsInv runner (exploreTo runner ctx d) (d + 1)
      (exploreTo_ctxIdsInv runner ctx h d)

theorem initialCtx_ctxIdsInv (setupEx : ExecM) (u0 : Nat) :
    ctxIdsInv (initialCtx setupEx u0) := by
  constructor
  · simp [allFrontierIds, initialCtx]
  · intro i hi
    have hie : i = setupEx.stateId := by
      simpa [allFrontierIds, initialCtx] using hi
    simp [initialCtx, hie]

/-- C2: during frontier expansion, every successfully-completed post-state
is deduplicated by its post-slicing fingerprint: if the fingerprint is
already in the visited set the state is discarded (neither appended to the
frontier entry nor yielded), otherwise the fingerprint is added to the
visited set and the state is both appended and yielded; consequently no
two states ever placed in any frontier entry share a fingerprint. -/
theorem frontier_fingerprint_dedup (runner : ExecM → List PostSpec)
    (sid : Nat) (ts0 : TsExpr) (path0 : List PathCond) (u0 : Nat) :
    (∀ depth preEx st p, p.kind = PostKind.success →
      ((p.stateId ∈ st.visited → processPost depth preEx st p = st) ∧
       (p.stateId ∉ st.visited →
         (processPost depth preEx st p).visited = st.visited ++ [p.stateId] ∧
         (processPost depth preEx st p).nextExs
            = st.nextExs ++ [mkPostEx depth preEx st p] ∧
         (processPost depth preEx st p).yields
            = st.yields ++ [mkPostEx depth preEx st p] ∧
         (mkPostEx depth preEx st p).stateId = p.stateId)))
    ∧ ∀ d, (allFrontierIds
        (exploreTo runner (initialCtx (setupExec sid ts0 path0) u0) d)).Nodup := by
  constructor
  · intro depth preEx st p hk
    constructor
    · intro hv
      exact processPost_seen depth preEx st p hk hv
    · intro hv
      rw [processPost_new depth preEx st p hk hv]
      exact ⟨rfl, rfl, rfl, rfl⟩
  · intro d
    exact (exploreTo_ctxIdsInv runner (initialCtx (setupExec sid ts0 path0) u0)
      (initialCtx_ctxIdsInv (setupExec sid ts0 path0) u0) d).1

/-- A small concrete invocation-runner oracle used by the witnesses: from
the setup state (fingerprint 7) two calls reach the same new state
(fingerprint 8, discovered twice via different routes), one call gets
stuck, and one reverts with a configured panic; from state 8 one further
call reaches state 11. -/
def runnerEx : ExecM → List PostSpec := fun ex =>
  if ex.stateId = 7 then
    [ { kind := PostKind.success, subcall := 1, extraPath := [PathCond.ext 0],
        stateId := 8 },
      { kind := PostKind.success, subcall := 2, extraPath := [], stateId := 8 },
      { kind := PostKind.stuck, subcall := 3, extraPath := [], stateId := 9 },
      { kind := PostKind.reverted true 4, subcall := 4, extraPath := [],
        stateId := 10 } ]
  else if ex.stateId = 8 then
    [ { kind := PostKind.success, subcall := 5, extraPath := [], stateId := 11 } ]
  else []

/-- A concrete in-progress frontier computation state for the witnesses. -/
def stepEx0 : FrontierStep :=
  { visited := [7], probes := [], nextExs := [], uidCounter := 0, yields := [] }

/-- A concrete successful post-state specification for the witnesses. -/
def postSpec0 : PostSpec :=
  { kind := PostKind.success, subcall := 1, extraPath := [], stateId := 8 }

theorem frontier_fingerprint_dedup_witness :
    (allFrontierIds
        (exploreTo runnerEx (initialCtx (setupExec 7 (TsExpr.ext 0) []) 0) 2)).Nodup
    ∧ (processPost 1 (setupExec 7 (TsExpr.ext 0) []) stepEx0 postSpec0).visited
        = stepEx0.visited ++ [8] :=
  ⟨(frontier_fingerprint_dedup runnerEx 7 (TsExpr.ext 0) [] 0).2 2,
   (((frontier_fingerprint_dedup runnerEx 7 (TsExpr.ext 0) [] 0).1 1
      (setupExec 7 (TsExpr.ext 0) []) stepEx0 postSpec0 rfl).2 (by decide)).1⟩

/-- C5: when a depth is present in the frontier cache, `get_frontier`
returns the cached entry directly without recomputation, and leaves the
whole exploration state — the visited set and every cached frontier entry —
unchanged (idempotent memoization). -/
theorem get_frontier_memoized (runner : ExecM → List PostSpec)
    (ctx : ExploreCtx) (depth : Nat) (fr : List ExecM)
    (h : lookupFrontier ctx.frontierStates depth = some fr) :
    get_frontier runner ctx depth = (fr, ctx)
    ∧ (get_frontier runner ctx depth).2.visited = ctx.visited
    ∧ (get_frontier runner ctx depth).2.frontierStates = ctx.frontierStates := by
  have heq : get_frontier runner ctx depth = (fr, ctx) := by
    unfold get_frontier
    rw [h]
  exact ⟨heq, by rw [heq], by rw [heq]⟩

theorem get_frontier_memoized_witness :
    get_frontier runnerEx (initialCtx (setupExec 7 (TsExpr.ext 0) []) 0) 0
      = ([setupExec 7 (TsExpr.ext 0) []],
         initialCtx (setupExec 7 (TsExpr.ext 0) []) 0) :=
  (get_frontier_memoized runnerEx (initialCtx (setupExec 7 (TsExpr.ext 0) []) 0) 0
    [setupExec 7 (TsExpr.ext 0) []] rfl).1

/-- Invariant carried through one `_compute_frontier` run at a given
depth: every state already placed in the entry under construction has a
call sequence of length exactly `depth`. -/
def stepLenInv (depth : Nat) (st : FrontierStep) : Prop :=
  ∀ ex ∈ st.nextExs, ex.callSequence.length = depth

theorem processPost_stepLenInv (depth : Nat) (preEx : ExecM) (st : FrontierStep)
    (p : PostSpec) (hpre : preEx.callSequence.length + 1 = depth)
    (h : stepLenInv depth st) : stepLenInv depth (processPost depth preEx st p) := by
  rcases processPost_cases depth preEx st p with heq | ⟨f, heq⟩ | ⟨hk, hv, heq⟩
  · rw [heq]; exact h
  · rw [heq]; exact h
  · rw [heq]
    intro ex hex
    rcases List.mem_append.mp hex with hex | hex
    · exact h ex hex
    · rcases List.mem_singleton.mp hex with rfl
      simp [mkPostEx, hpre]

theorem computeFrontierFrom_stepLenInv (runner : ExecM → List PostSpec)
    (depth : Nat) (curr : List ExecM) (st : FrontierStep)
    (hcurr : ∀ preEx ∈ curr, preEx.callSequence.length + 1 = depth)
    (h : stepLenInv depth st) :
    stepLenInv depth (computeFrontierFrom runner depth curr st) :=
  foldl_preserve_mem (processPre runner depth) (stepLenInv depth) curr
    (fun b preEx hmem hb =>
      foldl_preserve_mem (processPost depth preEx) (stepLenInv depth)
        (runner preEx)
        (fun b' p _ hb' =>
          processPost_stepLenInv depth preEx b' p (hcurr preEx hmem) hb')
        b hb)
    st h

/-- Invariant on the whole exploration state: every state stored in the
frontier cache entry for depth `d` has a call sequence of length exactly
`d`. -/
def ctxLenInv (ctx : ExploreCtx) : Prop :=
  ∀ q ∈ ctx.frontierStates, ∀ ex ∈ q.2, ex.callSequence.length = q.1

theorem lookupFrontier_mem (d : Nat) (l : List ExecM) :
    ∀ fs : List (Nat × List ExecM), lookupFrontier fs d = some l → (d, l) ∈ fs := by
  intro fs
  induction fs with
  | nil => intro h; cases h
  | cons q rest ih =>
      rcases q with ⟨k, v⟩
      intro h
      by_cases hq : k = d
      · subst hq
        simp only [lookupFrontier, if_pos rfl] at h
        injection h with h
        subst h
        exact List.mem_cons_self _ _
      · simp only [lookupFrontier, if_neg hq] at h
        exact List.mem_cons_of_mem _ (ih h)

theorem computeFrontier_ctxLenInv (runner : ExecM → List PostSpec)
    (ctx : ExploreCtx) (depth : Nat)
    (hnone : lookupFrontier ctx.frontierStates depth = none)
    (h : ctxLenInv ctx) : ctxLenInv (computeFrontier runner ctx depth).2 := by
  intro q hq
  simp only [computeFrontier] at hq
  rcases List.mem_append.mp hq with hq | hq
  · exact h q hq
  · rcases List.mem_singleton.mp hq with rfl
    intro ex hex
    cases hlk : lookupFrontier ctx.frontierStates (depth - 1) with
    | none =>
        rw [hlk] at hex
        simp only [Option.getD_none] at hex
        simp only [computeFrontierFrom, List.foldl_nil] at hex
        cases hex
    | some curr =>
        rw [hlk] at hex
        have hdep : depth ≠ 0 := by
          intro hd
          rw [hd] at hlk
          simp only [Nat.zero_sub] at hlk
          rw [hd] at hnone
          rw [hnone] at hlk
          cases hlk
        have hcurr : ∀ preEx ∈ curr, preEx.callSequence.length + 1 = depth := by
          intro preEx hpre
          have := h (depth - 1, curr) (lookupFrontier_mem (depth - 1) curr _ hlk)
            preEx hpre
          rw [this]
          exact Nat.succ_pred_eq_of_pos (Nat.pos_of_ne_zero hdep)
        exact computeFrontierFrom_stepLenInv runner depth curr _ hcurr
          (fun e he => by cases he) ex hex

theorem get_frontier_ctxLenInv (runner : ExecM → List PostSpec)
    (ctx : ExploreCtx) (depth : Nat) (h : ctxLenInv ctx) :
    ctxLenInv (get_frontier runner ctx depth).2 := by
  unfold get_frontier
  cases hlk : lookupFrontier ctx.frontierStates depth with
  | some fr => exact h
  | none => exact computeFrontier_ctxLenInv runner ctx depth hlk h

theorem exploreTo_ctxLenInv (runner : ExecM → List PostSpec)
    (ctx : ExploreCtx) (h : ctxLenInv ctx) :
    ∀ d, ctxLenInv (exploreTo runner ctx d)
  | 0 => get_frontier_ctxLenInv runner ctx 0 h
  | d + 1 => get_frontier_ctxLenInv runner (exploreTo runner ctx d) (d + 1)
      (exploreTo_ctxLenInv runner ctx h d)

theorem initialCtx_ctxLenInv (sid : Nat) (ts0 : TsExpr) (path0 : List PathCond)
    (u0 : Nat) : ctxLenInv (initialCtx (setupExec sid ts0 path0) u0) := by
  intro q hq
  rcases List.mem_singleton.mp hq with rfl
  intro ex hex
  rcases List.mem_singleton.mp hex with rfl
  rfl

/-- C6: every state appended to a frontier entry has a call sequence equal
to its predecessor's with exactly one call context appended; the initial
setup state seeding `frontier_states[0]` has an empty call sequence; and
consequently every state stored in the frontier cache entry for depth `d`
has call-sequence length exactly `d`. -/
theorem frontier_call_sequence_depth (runner : ExecM → List PostSpec)
    (sid : Nat) (ts0 : TsExpr) (path0 : List PathCond) (u0 : Nat) :
    (∀ depth preEx st p, p.kind = PostKind.success → p.stateId ∉ st.visited →
      (processPost depth preEx st p).nextExs
          = st.nextExs ++ [mkPostEx depth preEx st p] ∧
      (mkPostEx depth preEx st p).callSequence
          = preEx.callSequence ++ [p.subcall])
    ∧ (setupExec sid ts0 path0).callSequence = []
    ∧ ∀ d dd exs, lookupFrontier
        (exploreTo runner (initialCtx (setupExec sid ts0 path0) u0) d).frontierStates
        dd = some exs →
      ∀ ex ∈ exs, ex.callSequence.length = dd := by
  refine ⟨?_, rfl, ?_⟩
  · intro depth preEx st p hk hv
    rw [processPost_new depth preEx st p hk hv]
    exact ⟨rfl, rfl⟩
  · intro d dd exs hlk ex hex
    exact exploreTo_ctxLenInv runner (initialCtx (setupExec sid ts0 path0) u0)
      (initialCtx_ctxLenInv sid ts0 path0 u0) d (dd, exs)
      (lookupFrontier_mem dd exs _ hlk) ex hex

/-- The single state placed in the frontier entry at depth 1 by the
witness runner. -/
def postEx1 : ExecM :=
  mkPostEx 1 (setupExec 7 (TsExpr.ext 0) []) stepEx0
    { kind := PostKind.success, subcall := 1, extraPath := [PathCond.ext 0],
      stateId := 8 }

theorem frontier_call_sequence_depth_witness :
    postEx1.callSequence.length = 1 :=
  (frontier_call_sequence_depth runnerEx 7 (TsExpr.ext 0) [] 0).2.2 1 1 [postEx1]
    (by decide) postEx1 (List.mem_singleton_self _)

/-- Invariant carried through one `_compute_frontier` run: every state
placed in the entry under construction descends from some predecessor in
the previous frontier `curr`, carries the appended timestamp constraint
against that predecessor, and its path extends the predecessor's path. -/
def stepTsInv (curr : List ExecM) (st : FrontierStep) : Prop :=
  ∀ ex ∈ st.nextExs, ∃ preEx ∈ curr,
    PathCond.tsGe ex.timestamp preEx.timestamp ∈ ex.path ∧
    ∃ rest, ex.path = preEx.path ++ rest

theorem processPost_stepTsInv (curr : List ExecM) (depth : Nat) (preEx : ExecM)
    (st : FrontierStep) (p : PostSpec) (hpre : preEx ∈ curr)
    (h : stepTsInv curr st) : stepTsInv curr (processPost depth preEx st p) := by
  rcases processPost_cases depth preEx st p with heq | ⟨f, heq⟩ | ⟨hk, hv, heq⟩
  · rw [heq]; exact h
  · rw [heq]; exact h
  · rw [heq]
    intro ex hex
    rcases List.mem_append.mp hex with hex | hex
    · exact h ex hex
    · rcases List.mem_singleton.mp hex with rfl
      refine ⟨preEx, hpre, ?_, ?_⟩
      · simp [mkPostEx]
      · exact ⟨p.extraPath
            ++ [PathCond.tsGe (TsExpr.freshTs depth st.uidCounter) preEx.timestamp],
          by simp [mkPostEx]⟩

theorem computeFrontierFrom_stepTsInv (runner : ExecM → List PostSpec)
    (depth : Nat) (curr : List ExecM) (st : FrontierStep)
    (h : stepTsInv curr st) :
    stepTsInv curr (computeFrontierFrom runner depth curr st) :=
  foldl_preserve_mem (processPre runner depth) (stepTsInv curr) curr
    (fun b preEx hmem hb =>
      foldl_preserve_mem (processPost depth preEx) (stepTsInv curr)
        (runner preEx)
        (fun b' p _ hb' => processPost_stepTsInv curr depth preEx b' p hmem hb')
        b hb)
    st h

/-- Invariant carried through one `_compute_frontier` run at a given
depth: the timestamps of the states placed in the entry under construction
are pairwise-distinct fresh symbols, each named by the depth and a `uid()`
value below the current counter. -/
def stepUidInv (depth : Nat) (st : FrontierStep) : Prop :=
  (st.nextExs.map ExecM.timestamp).Nodup ∧
  ∀ ex ∈ st.nextExs, ∃ u, u < st.uidCounter ∧ ex.timestamp = TsExpr.freshTs depth u

theorem processPost_stepUidInv (depth : Nat) (preEx : ExecM) (st : FrontierStep)
    (p : PostSpec) (h : stepUidInv depth st) :
    stepUidInv depth (processPost depth preEx st p) := by
  rcases processPost_cases depth preEx st p with heq | ⟨f, heq⟩ | ⟨hk, hv, heq⟩
  · rw [heq]; exact h
  · rw [heq]; exact h
  · rw [heq]
    rcases h with ⟨hnd, hbound⟩
    constructor
    · simp only [List.map_append, List.map_cons, List.map_nil]
      rw [List.nodup_append]
      refine ⟨hnd, List.nodup_singleton _, ?_⟩
      intro x hx hx1
      rcases List.mem_singleton.mp hx1 with rfl
      rcases List.mem_map.mp hx with ⟨ex, hex, hts⟩
      rcases hbound ex hex with ⟨u, hu, hts2⟩
      rw [hts2] at hts
      have hts3 : TsExpr.freshTs depth u = TsExpr.freshTs depth st.uidCounter := by
        simpa [mkPostEx] using hts
      injection hts3 with h1 h2
      omega
    · intro ex hex
      rcases List.mem_append.mp hex with hex | hex
      · rcases hbound ex hex with ⟨u, hu, hts⟩
        exact ⟨u, Nat.lt_succ_of_lt hu, hts⟩
      · rcases List.mem_singleton.mp hex with rfl
        exact ⟨st.uidCounter, Nat.lt_succ_self _, rfl⟩

theorem computeFrontierFrom_stepUidInv (runner : ExecM → List PostSpec)
    (depth : Nat) (curr : List ExecM) (st : FrontierStep)
    (h : stepUidInv depth st) :
    stepUidInv depth (computeFrontierFrom runner depth curr st) :=
  foldl_preserve_mem (processPre runner depth) (stepUidInv depth) curr
    (fun b preEx _ hb =>
      foldl_preserve_mem (processPost depth preEx) (stepUidInv depth)
        (runner preEx)
        (fun b' p _ hb' => processPost_stepUidInv depth preEx b' p hb')
        b hb)
    st h

theorem lookupFrontier_append_some (q : Nat × List ExecM) (d : Nat)
    (l : List ExecM) :
    ∀ fs, lookupFrontier fs d = some l → lookupFrontier (fs ++ [q]) d = some l := by
  intro fs
  induction fs with
  | nil => intro h; cases h
  | cons r rest ih =>
      intro h
      by_cases hr : r.1 = d
      · simp only [lookupFrontier, if_pos hr] at h
        simp only [List.cons_append, lookupFrontier, if_pos hr]
        exact h
      · simp only [lookupFrontier, if_neg hr] at h
        simp only [List.cons_append, lookupFrontier, if_neg hr]
        exact ih h

theorem lookupFrontier_append_none (k : Nat) (v : List ExecM) (d : Nat) :
    ∀ fs, lookupFrontier fs d = none →
      lookupFrontier (fs ++ [(k, v)]) d = if k = d then some v else none := by
  intro fs
  induction fs with
  | nil => intro _; simp [lookupFrontier]
  | cons r rest ih =>
      intro h
      by_cases hr : r.1 = d
      · simp only [lookupFrontier, if_pos hr] at h
        cases h
      · simp only [lookupFrontier, if_neg hr] at h
        simp only [List.cons_append, lookupFrontier, if_neg hr]
        exact ih h

/-- Invariant on a frontier cache: every state in an entry at a positive
depth has a predecessor in the entry one depth below, carries the appended
timestamp constraint against it, and its path extends the predecessor's
path. -/
def fsTsInv (fs : List (Nat × List ExecM)) : Prop :=
  ∀ dd exs, lookupFrontier fs (dd + 1) = some exs →
    ∀ ex ∈ exs, ∃ preExs preEx,
      lookupFrontier fs dd = some preExs ∧ preEx ∈ preExs ∧
      PathCond.tsGe ex.timestamp preEx.timestamp ∈ ex.path ∧
      ∃ rest, ex.path = preEx.path ++ rest

theorem fsTsInv_append_empty (fs : List (Nat × List ExecM)) (depth : Nat)
    (h : fsTsInv fs) : fsTsInv (fs ++ [(depth, [])]) := by
  intro dd exs hlk ex hex
  cases hold : lookupFrontier fs (dd + 1) with
  | some exs0 =>
      rw [lookupFrontier_append_some (depth, []) (dd + 1) exs0 fs hold] at hlk
      injection hlk with hlk
      subst hlk
      rcases h dd exs0 hold ex hex with ⟨preExs, preEx, hp1, hp2, hp3, hp4⟩
      exact ⟨preExs, preEx,
        lookupFrontier_append_some (depth, []) dd preExs fs hp1, hp2, hp3, hp4⟩
  | none =>
      rw [lookupFrontier_append_none depth [] (dd + 1) fs hold] at hlk
      by_cases hd : depth = dd + 1
      · rw [if_pos hd] at hlk
        injection hlk with hlk
        subst hlk
        cases hex
      · rw [if_neg hd] at hlk
        cases hlk

theorem fsTsInv_append (fs : List (Nat × List ExecM)) (depth : Nat)
    (newExs curr : List ExecM)
    (hcurr : lookupFrontier fs (depth - 1) = some curr)
    (hnew : ∀ ex ∈ newExs, ∃ preEx ∈ curr,
        PathCond.tsGe ex.timestamp preEx.timestamp ∈ ex.path ∧
        ∃ rest, ex.path = preEx.path ++ rest)
    (h : fsTsInv fs) : fsTsInv (fs ++ [(depth, newExs)]) := by
  intro dd exs hlk ex hex
  cases hold : lookupFrontier fs (dd + 1) with
  | some exs0 =>
      rw [lookupFrontier_append_some (depth, newExs) (dd + 1) exs0 fs hold] at hlk
      injection hlk with hlk
      subst hlk
      rcases h dd exs0 hold ex hex with ⟨preExs, preEx, hp1, hp2, hp3, hp4⟩
      exact ⟨preExs, preEx,
        lookupFrontier_append_some (depth, newExs) dd preExs fs hp1, hp2, hp3, hp4⟩
  | none =>
      rw [lookupFrontier_append_none depth newExs (dd + 1) fs hold] at hlk
      by_cases hd : depth = dd + 1
      · rw [if_pos hd] at hlk
        injection hlk with hlk
        subst hlk
        rcases hnew ex hex with ⟨preEx, hpre, hp3, hp4⟩
        have hdd : depth - 1 = dd := by omega
        rw [hdd] at hcurr
        exact ⟨curr, preEx,
          lookupFrontier_append_some (depth, newExs) dd curr fs hcurr, hpre, hp3, hp4⟩
      · rw [if_neg hd] at hlk
        cases hlk

/-- Invariant on a frontier cache: the timestamps of the states in an
entry at a positive depth are pairwise distinct, and each is the fresh
symbol named by that depth and some `uid()` value. -/
def fsUidInv (fs : List (Nat × List ExecM)) : Prop :=
  ∀ dd exs, lookupFrontier fs (dd + 1) = some exs →
    (exs.map ExecM.timestamp).Nodup ∧
    ∀ ex ∈ exs, ∃ u, ex.timestamp = TsExpr.freshTs (dd + 1) u

theorem fsUidInv_append (fs : List (Nat × List ExecM)) (depth : Nat)
    (newExs : List ExecM)
    (hnew : (newExs.map ExecM.timestamp).Nodup ∧
      ∀ ex ∈ newExs, ∃ u, ex.timestamp = TsExpr.freshTs depth u)
    (h : fsUidInv fs) : fsUidInv (fs ++ [(depth, newExs)]) := by
  intro dd exs hlk
  cases hold : lookupFrontier fs (dd + 1) with
  | some exs0 =>
      rw [lookupFrontier_append_some (depth, newExs) (dd + 1) exs0 fs hold] at hlk
      injection hlk with hlk
      subst hlk
      exact h dd exs0 hold
  | none =>
      rw [lookupFrontier_append_none depth newExs (dd + 1) fs hold] at hlk
      by_cases hd : depth = dd + 1
      · rw [if_pos hd] at hlk
        injection hlk with hlk
        subst hlk
        subst hd
        exact hnew
      · rw [if_neg hd] at hlk
        cases hlk

theorem computeFrontier_frontierStates (runner : ExecM → List PostSpec)
    (ctx : ExploreCtx) (depth : Nat) :
    (computeFrontier runner ctx depth).2.frontierStates =
      ctx.frontierStates ++ [(depth,
        (computeFrontierFrom runner depth
          ((lookupFrontier ctx.frontierStates (depth - 1)).getD [])
          { visited := ctx.visited
            probes := ctx.probesReported
            nextExs := []
            uidCounter := ctx.uidCounter
            yields := [] }).nextExs)] := rfl

theorem computeFrontier_fsTsInv (runner : ExecM → List PostSpec)
    (ctx : ExploreCtx) (depth : Nat) (h : fsTsInv ctx.frontierStates) :
    fsTsInv (computeFrontier runner ctx depth).2.frontierStates := by
  rw [computeFrontier_frontierStates]
  cases hlk : lookupFrontier ctx.frontierStates (depth - 1) with
  | none =>
      exact fsTsInv_append_empty _ depth h
  | some curr =>
      exact fsTsInv_append _ depth _ curr hlk
        (computeFrontierFrom_stepTsInv runner depth curr _
          (fun e he => absurd he (List.not_mem_nil e)))
        h

theorem computeFrontier_fsUidInv (runner : ExecM → List PostSpec)
    (ctx : ExploreCtx) (depth : Nat) (h : fsUidInv ctx.frontierStates) :
    fsUidInv (computeFrontier runner ctx depth).2.frontierStates := by
  rw [computeFrontier_frontierStates]
  have hstep := computeFrontierFrom_stepUidInv runner depth
    ((lookupFrontier ctx.frontierStates (depth - 1)).getD [])
    { visited := ctx.visited
      probes := ctx.probesReported
      nextExs := []
      uidCounter := ctx.uidCounter
      yields := [] }
    ⟨List.nodup_nil, fun e he => absurd he (List.not_mem_nil e)⟩
  exact fsUidInv_append _ depth _
    ⟨hstep.1, fun ex hex => (hstep.2 ex hex).imp (fun u hu => hu.2)⟩ h

theorem get_frontier_fsTsInv (runner : ExecM → List PostSpec)
    (ctx : ExploreCtx) (depth : Nat) (h : fsTsInv ctx.frontierStates) :
    fsTsInv (get_frontier runner ctx depth).2.frontierStates := by
  unfold get_frontier
  cases lookupFrontier ctx.frontierStates depth with
  | some fr => exact h
  | none => exact computeFrontier_fsTsInv runner ctx depth h

theorem get_frontier_fsUidInv (runner : ExecM → List PostSpec)
    (ctx : ExploreCtx) (depth : Nat) (h : fsUidInv ctx.frontierStates) :
    fsUidInv (get_frontier runner ctx depth).2.frontierStates := by
  unfold get_frontier
  cases lookupFrontier ctx.frontierStates depth with
  | some fr => exact h
  | none => exact computeFrontier_fsUidInv runner ctx depth h

theorem exploreTo_fsTsInv (runner : ExecM → List PostSpec) (ctx : ExploreCtx)
    (h : fsTsInv ctx.frontierStates) :
    ∀ d, fsTsInv (exploreTo runner ctx d).frontierStates
  | 0 => get_frontier_fsTsInv runner ctx 0 h
  | d + 1 => get_frontier_fsTsInv runner (exploreTo runner ctx d) (d + 1)
      (exploreTo_fsTsInv runner ctx h d)

theorem exploreTo_fsUidInv (runner : ExecM → List PostSpec) (ctx : ExploreCtx)
    (h : fsUidInv ctx.frontierStates) :
    ∀ d, fsUidInv (exploreTo runner ctx d).frontierStates
  | 0 => get_frontier_fsUidInv runner ctx 0 h
  | d + 1 => get_frontier_fsUidInv runner (exploreTo runner ctx d) (d + 1)
      (exploreTo_fsUidInv runner ctx h d)

theorem initialCtx_fsTsInv (setupEx : ExecM) (u0 : Nat) :
    fsTsInv (initialCtx setupEx u0).frontierStates := by
  intro dd exs hlk
  have hne : (0 : Nat) ≠ dd + 1 := by omega
  simp only [initialCtx, lookupFrontier, if_neg hne] at hlk
  cases hlk

theorem initialCtx_fsUidInv (setupEx : ExecM) (u0 : Nat) :
    fsUidInv (initialCtx setupEx u0).frontierStates := by
  intro dd exs hlk
  have hne : (0 : Nat) ≠ dd + 1 := by omega
  simp only [initialCtx, lookupFrontier, if_neg hne] at hlk
  cases hlk

theorem pathSat_append_left (se : Nat → Nat) (sf : Nat → Nat → Nat)
    (sc : Nat → Bool) (l1 l2 : List PathCond)
    (h : pathSat se sf sc (l1 ++ l2)) : pathSat se sf sc l1 :=
  fun c hc => h c (List.mem_append_left _ hc)

/-- C7: every state appended to a frontier entry receives a fresh symbolic
block timestamp (a fresh 64-bit symbol zero-extended to 256 bits, named by
the depth and a per-run-unique `uid()` value) and the constraint that its
timestamp is at least its predecessor's is appended to its path; the fresh
names used within a frontier entry are pairwise distinct; and along every
explored chain each state's path entails its predecessor's path together
with timestamp monotonicity, so under any valuation satisfying a state's
path the block timestamps are non-decreasing along its chain. -/
theorem frontier_timestamp_monotone (runner : ExecM → List PostSpec)
    (sid : Nat) (ts0 : TsExpr) (path0 : List PathCond) (u0 : Nat) :
    (∀ depth preEx st p, p.kind = PostKind.success → p.stateId ∉ st.visited →
      (processPost depth preEx st p).nextExs
          = st.nextExs ++ [mkPostEx depth preEx st p] ∧
      (processPost depth preEx st p).uidCounter = st.uidCounter + 1 ∧
      (mkPostEx depth preEx st p).timestamp = TsExpr.freshTs depth st.uidCounter ∧
      (mkPostEx depth preEx st p).path
          = preEx.path ++ p.extraPath
            ++ [PathCond.tsGe (TsExpr.freshTs depth st.uidCounter) preEx.timestamp])
    ∧ (∀ d dd exs,
        lookupFrontier (exploreTo runner (initialCtx (setupExec sid ts0 path0) u0)
            d).frontierStates (dd + 1) = some exs →
        (exs.map ExecM.timestamp).Nodup ∧
        ∀ ex ∈ exs, ∃ u, ex.timestamp = TsExpr.freshTs (dd + 1) u)
    ∧ ∀ d dd exs ex,
        lookupFrontier (exploreTo runner (initialCtx (setupExec sid ts0 path0) u0)
            d).frontierStates (dd + 1) = some exs →
        ex ∈ exs →
        ∃ preExs preEx,
          lookupFrontier (exploreTo runner (initialCtx (setupExec sid ts0 path0) u0)
              d).frontierStates dd = some preExs ∧ preEx ∈ preExs ∧
          PathCond.tsGe ex.timestamp preEx.timestamp ∈ ex.path ∧
          ∀ se sf sc, pathSat se sf sc ex.path →
            pathSat se sf sc preEx.path ∧
            TsExpr.eval se sf preEx.timestamp ≤ TsExpr.eval se sf ex.timestamp := by
  refine ⟨?_, ?_, ?_⟩
  · intro depth preEx st p hk hv
    rw [processPost_new depth preEx st p hk hv]
    exact ⟨rfl, rfl, rfl, rfl⟩
  · intro d dd exs hlk
    exact exploreTo_fsUidInv runner (initialCtx (setupExec sid ts0 path0) u0)
      (initialCtx_fsUidInv (setupExec sid ts0 path0) u0) d dd exs hlk
  · intro d dd exs ex hlk hex
    rcases exploreTo_fsTsInv runner (initialCtx (setupExec sid ts0 path0) u0)
        (initialCtx_fsTsInv (setupExec sid ts0 path0) u0) d dd exs hlk ex hex with
      ⟨preExs, preEx, h1, h2, h3, rest, h4⟩
    refine ⟨preExs, preEx, h1, h2, h3, ?_⟩
    intro se sf sc hsat
    constructor
    · rw [h4] at hsat
      exact pathSat_append_left se sf sc preEx.path rest hsat
    · exact hsat (PathCond.tsGe ex.timestamp preEx.timestamp) h3

theorem frontier_timestamp_monotone_witness :
    ∃ preExs preEx,
      lookupFrontier (exploreTo runnerEx
          (initialCtx (setupExec 7 (TsExpr.ext 0) []) 0) 1).frontierStates 0
        = some preExs ∧ preEx ∈ preExs ∧
      PathCond.tsGe postEx1.timestamp preEx.timestamp ∈ postEx1.path ∧
      ∀ se sf sc, pathSat se sf sc postEx1.path →
        pathSat se sf sc preEx.path ∧
        TsExpr.eval se sf preEx.timestamp ≤ TsExpr.eval se sf postEx1.timestamp :=
  (frontier_timestamp_monotone runnerEx 7 (TsExpr.ext 0) [] 0).2.2 1 0 [postEx1]
    postEx1 (by decide) (List.mem_singleton_self _)

/-- Observable events of `run_target_contract` (lines 450-511): skipping a
`pure`/`view` function, yielding an output state for function `i`, logging
a caught exception (`except Exception` at line 504), and releasing the
per-function solver session (`finally: reset(solver)` at line 511). -/
inductive TEv
  | skipReadOnly (i : Nat)
  | yieldOut (i : Nat) (s : Nat)
  | logError (i : Nat)
  | release (i : Nat)
  deriving DecidableEq

/-- The function index an event belongs to. -/
def TEv.fnIdx : TEv → Nat
  | .skipReadOnly i => i
  | .yieldOut i _ => i
  | .logError i => i
  | .release i => i

/-- Behavior of one enumerated ABI function of the target contract:
whether its declared state mutability is `pure` or `view`; the output
states `sevm.run_message` yields for it (opaque ids); and whether
preparing or executing it raises an exception after `k` of those states
were yielded (`raisesAfter = some k`; preparation failures are
`raisesAfter = some 0`). -/
structure FnSpec where
  isReadOnly : Bool
  execOutputs : List Nat
  raisesAfter : Option Nat
  deriving DecidableEq

/-- The event trace contributed by one enumerated function: read-only
functions are skipped without creating a solver session; otherwise the
`try` body yields output states until completion or an exception (which is
caught and logged), and the `finally` block releases the solver session in
every case before the loop moves on. -/
def fnTrace (i : Nat) (f : FnSpec) : List TEv :=
  if f.isReadOnly = true then [TEv.skipReadOnly i]
  else
    match f.raisesAfter with
    | none => (f.execOutputs.map (TEv.yieldOut i)) ++ [TEv.release i]
    | some k => ((f.execOutputs.take k).map (TEv.yieldOut i))
        ++ [TEv.logError i, TEv.release i]

/-- The enumeration loop of `run_target_contract` over
`method_identifiers`, starting at function index `base`. -/
def runTargetFrom (base : Nat) : List FnSpec → List TEv
  | [] => []
  | f :: rest => fnTrace base f ++ runTargetFrom (base + 1) rest

/-- The full event trace of `run_target_contract` over the enumerated
functions of the target contract, with the generator fully consumed. -/
def run_target_contract (fns : List FnSpec) : List TEv :=
  runTargetFrom 0 fns

/-- The event trace when the consumer stops consuming the generator while
function `stopFn` (with spec `f`, not read-only) is executing, after
consuming `consumed` of its yielded states: closing the generator raises
GeneratorExit at the suspended yield inside the `try` block (not caught by
`except Exception`), the `finally` block still runs `reset(solver)`, and
no further function is processed. -/
def runTargetStopped (fns : List FnSpec) (stopFn : Nat) (f : FnSpec)
    (consumed : Nat) : List TEv :=
  runTargetFrom 0 (fns.take stopFn)
    ++ (f.execOutputs.take consumed).map (TEv.yieldOut stopFn)
    ++ [TEv.release stopFn]

theorem fnTrace_fnIdx (i : Nat) (f : FnSpec) :
    ∀ e ∈ fnTrace i f, e.fnIdx = i := by
  intro e he
  unfold fnTrace at he
  by_cases hro : f.isReadOnly = true
  · rw [if_pos hro] at he
    rcases List.mem_singleton.mp he with rfl
    rfl
  · rw [if_neg hro] at he
    cases hra : f.raisesAfter with
    | none =>
        rw [hra] at he
        rcases List.mem_append.mp he with he | he
        · rcases List.mem_map.mp he with ⟨s, hs, rfl⟩
          rfl
        · rcases List.mem_singleton.mp he with rfl
          rfl
    | some k =>
        rw [hra] at he
        rcases List.mem_append.mp he with he | he
        · rcases List.mem_map.mp he with ⟨s, hs, rfl⟩
          rfl
        · rcases List.mem_cons.mp he with rfl | he
          · rfl
          · rcases List.mem_singleton.mp he with rfl
            rfl

theorem runTargetFrom_fnIdx_ge (base : Nat) :
    ∀ fns, ∀ e ∈ runTargetFrom base fns, base ≤ e.fnIdx := by
  intro fns
  induction fns generalizing base with
  | nil => intro e he; cases he
  | cons f rest ih =>
      intro e he
      rcases List.mem_append.mp he with he | he
      · rw [fnTrace_fnIdx base f e he]
      · exact Nat.le_of_succ_le (ih (base + 1) e he)

theorem runTargetFrom_fnIdx_lt (base : Nat) :
    ∀ fns, ∀ e ∈ runTargetFrom base fns, e.fnIdx < base + fns.length := by
  intro fns
  induction fns generalizing base with
  | nil => intro e he; cases he
  | cons f rest ih =>
      intro e he
      rcases List.mem_append.mp he with he | he
      · rw [fnTrace_fnIdx base f e he]
        simp
      · have := ih (base + 1) e he
        simp only [List.length_cons]
        omega

theorem runTargetFrom_split (f : FnSpec) :
    ∀ (fns : List FnSpec) (j base : Nat), fns[j]? = some f →
      runTargetFrom base fns =
        runTargetFrom base (fns.take j) ++ fnTrace (base + j) f
          ++ runTargetFrom (base + j + 1) (fns.drop (j + 1)) := by
  intro fns
  induction fns with
  | nil => intro j base h; simp at h
  | cons g rest ih =>
      intro j base h
      cases j with
      | zero =>
          rw [List.getElem?_cons_zero] at h
          injection h with h
          subst h
          simp [runTargetFrom]
      | succ j' =>
          rw [List.getElem?_cons_succ] at h
          have e1 : base + (j' + 1) = base + 1 + j' := by omega
          have e2 : base + (j' + 1) + 1 = base + 1 + j' + 1 := by omega
          simp only [List.take_succ_cons, List.drop_succ_cons, runTargetFrom,
            List.append_assoc, e1, e2]
          rw [ih j' (base + 1) h]
          simp [List.append_assoc]

theorem fnTrace_release (i : Nat) (f : FnSpec) (h : f.isReadOnly = false) :
    ∃ c, fnTrace i f = c ++ [TEv.release i] ∧ ∀ e ∈ c, TEv.fnIdx e = i := by
  have hidx := fnTrace_fnIdx i f
  unfold fnTrace
  rw [if_neg (by simp [h])]
  cases f.raisesAfter with
  | none =>
      refine ⟨f.execOutputs.map (TEv.yieldOut i), rfl, ?_⟩
      intro e he
      rcases List.mem_map.mp he with ⟨s, hs, rfl⟩
      rfl
  | some k =>
      refine ⟨(f.execOutputs.take k).map (TEv.yieldOut i) ++ [TEv.logError i],
        by simp, ?_⟩
      intro e he
      rcases List.mem_append.mp he with he | he
      · rcases List.mem_map.mp he with ⟨s, hs, rfl⟩
        rfl
      · rcases List.mem_singleton.mp he with rfl
        rfl

theorem getLast?_append_singleton {α : Type} (l : List α) (a : α) :
    (l ++ [a]).getLast? = some a :=
  List.getLast?_concat l

/-- C3: in `run_target_contract`, an exception raised while preparing or
executing one enumerated non-pure/non-view function is caught and logged
and only that function is skipped — every sibling function's enumeration
and outputs are unaffected; and the per-function solver session is
released unconditionally on every exit path (success, caught exception, or
early termination of the generator) before any later function's events. -/
theorem run_target_contract_isolation (fns : List FnSpec) :
    (∀ j g, fns[j]? = some g → g.isReadOnly = false → g.raisesAfter = none →
      ∀ s ∈ g.execOutputs, TEv.yieldOut j s ∈ run_target_contract fns)
    ∧ (∀ j g k, fns[j]? = some g → g.isReadOnly = false →
        g.raisesAfter = some k → TEv.logError j ∈ run_target_contract fns)
    ∧ (∀ j g, fns[j]? = some g → g.isReadOnly = false →
        ∃ pre post, run_target_contract fns = pre ++ TEv.release j :: post ∧
          (∀ e ∈ pre, e.fnIdx ≤ j) ∧ (∀ e ∈ post, j < e.fnIdx))
    ∧ ∀ stopFn g consumed, (runTargetStopped fns stopFn g consumed).getLast?
        = some (TEv.release stopFn) := by
  refine ⟨?_, ?_, ?_, ?_⟩
  · intro j g hget hro hra s hs
    rw [run_target_contract, runTargetFrom_split g fns j 0 hget]
    have hmem : TEv.yieldOut j s ∈ fnTrace (0 + j) g := by
      unfold fnTrace
      rw [if_neg (by simp [hro]), hra]
      refine List.mem_append_left _ (List.mem_map.mpr ⟨s, hs, ?_⟩)
      simp
    rcases List.mem_append.mp (List.mem_append_left
      (runTargetFrom (0 + j + 1) (fns.drop (j + 1)))
      (List.mem_append_right (runTargetFrom 0 (fns.take j)) hmem)) with h | h
    · exact List.mem_append.mpr (Or.inl h)
    · exact List.mem_append.mpr (Or.inr h)
  · intro j g k hget hro hra
    rw [run_target_contract, runTargetFrom_split g fns j 0 hget]
    have hmem : TEv.logError j ∈ fnTrace (0 + j) g := by
      unfold fnTrace
      rw [if_neg (by simp [hro]), hra]
      refine List.mem_append_right _ ?_
      simp
    exact List.mem_append.mpr (Or.inl (List.mem_append_right _ hmem))
  · intro j g hget hro
    rw [run_target_contract, runTargetFrom_split g fns j 0 hget]
    rcases fnTrace_release (0 + j) g hro with ⟨c, hc, hcidx⟩
    refine ⟨runTargetFrom 0 (fns.take j) ++ c,
      runTargetFrom (0 + j + 1) (fns.drop (j + 1)), ?_, ?_, ?_⟩
    · rw [hc]
      simp [List.append_assoc]
    · intro e he
      rcases List.mem_append.mp he with he | he
      · have h1 := runTargetFrom_fnIdx_lt 0 (fns.take j) e he
        have h2 : (fns.take j).length ≤ j := by
          rw [List.length_take]
          omega
        omega
      · rw [hcidx e he]
        simp [Nat.zero_add]
    · intro e he
      have := runTargetFrom_fnIdx_ge (0 + j + 1) (fns.drop (j + 1)) e he
      omega
  · intro stopFn g consumed
    rw [runTargetStopped, List.append_assoc, ← List.append_assoc]
    exact getLast?_append_singleton _ _

/-- A small concrete function enumeration used by the witness: a `view`
function (skipped), a function raising after one yielded state, and a
normally completing function. -/
def fnsEx : List FnSpec :=
  [ { isReadOnly := true, execOutputs := [], raisesAfter := none },
    { isReadOnly := false, execOutputs := [10, 11], raisesAfter := some 1 },
    { isReadOnly := false, execOutputs := [12], raisesAfter := none } ]

theorem run_target_contract_isolation_witness :
    TEv.yieldOut 2 12 ∈ run_target_contract fnsEx
    ∧ TEv.logError 1 ∈ run_target_contract fnsEx
    ∧ (runTargetStopped fnsEx 2
        { isReadOnly := false, execOutputs := [12], raisesAfter := none }
        0).getLast? = some (TEv.release 2) :=
  ⟨(run_target_contract_isolation fnsEx).1 2
      { isReadOnly := false, execOutputs := [12], raisesAfter := none }
      (by decide) rfl rfl 12 (by decide),
   (run_target_contract_isolation fnsEx).2.1 1
      { isReadOnly := false, execOutputs := [10, 11], raisesAfter := some 1 }
      1 (by decide) rfl rfl,
   (run_target_contract_isolation fnsEx).2.2.2 2
      { isReadOnly := false, execOutputs := [12], raisesAfter := none } 0⟩

/-- Attributes of one explored path inspected by the `run_test` loop:
`ex.is_panic_of(args.panic_error_codes)`, `is_global_fail_set(ex.context)`,
`ex.context.is_stuck()`, `ex.context.output.error`, and the result of the
synchronous `solve_low_level` call made when the stuck branch runs. -/
structure PathExec where
  panicFound : Bool
  failFound : Bool
  isStuck : Bool
  errorOutput : Bool
  stuckSolveResult : SmtResult
  deriving DecidableEq

/-- Observable events of the `run_test` driver: submitting a query to the
asynchronous pool (`thread_pool.submit`, line 827), solving a query
synchronously (`solve_low_level`, line 843), the final blocking pool
shutdown (`thread_pool.shutdown(wait=True)`, line 894), and computing the
verdict (lines 903-922). -/
inductive REv
  | submit (pid : Nat)
  | syncSolve (pid : Nat)
  | shutdownBlocking
  | computeVerdict
  deriving DecidableEq

/-- The loop state of `run_test`: `path_id` (initialized to 0 before the
loop, line 773), the `normal` counter, the `potential` counter, the
`stuck` list (path ids), and the events performed. -/
structure RunState where
  pathId : Nat
  normal : Nat
  potential : Nat
  stuck : List Nat
  events : List REv
  deriving DecidableEq

/-- Loop state before the exploration loop (lines 700-702, 773). -/
def initialRunState : RunState :=
  { pathId := 0, normal := 0, potential := 0, stuck := [], events := [] }

/-- The per-iteration classification of one explored path (lines 793-855):
a potential assertion violation (panic found or global fail flag set) is
submitted to the asynchronous pool — unless submission raises
ShutdownError, which breaks the loop; else a stuck path is solved
synchronously and recorded as stuck when the result is not `unsat`; else a
path with no error output counts as normal.  Returns the updated state and
whether the loop breaks. -/
def classifyStep (subRaise : Bool) (i : Nat) (p : PathExec) (st : RunState) :
    RunState × Bool :=
  if (p.panicFound || p.failFound) = true then
    let st1 := { st with potential := st.potential + 1 }
    if subRaise = true then (st1, true)
    else ({ st1 with events := st1.events ++ [REv.submit i] }, false)
  else if p.isStuck = true then
    let st1 := { st with events := st.events ++ [REv.syncSolve i] }
    if p.stuckSolveResult = SmtResult.unsat then (st1, false)
    else ({ st1 with stuck := st1.stuck ++ [i] }, false)
  else if p.errorOutput = false then
    ({ st with normal := st.normal + 1 }, false)
  else (st, false)

/-- The path exploration loop of `run_test` (lines 775-866): `sh i` is the
value of `executor.is_shutdown()` sampled at the top of iteration `i` (it
can flip asynchronously when an early-exit callback fires), `subRaise i`
is whether submitting path `i` raises ShutdownError, and `width` is the
`--width` limit (0 means unlimited).  `path_id` is assigned by `enumerate`
before the shutdown check. -/
def runLoop (sh subRaise : Nat → Bool) (width : Nat) :
    Nat → RunState → List PathExec → RunState
  | _, st, [] => st
  | i, st, p :: rest =>
      if sh i = true then { st with pathId := i }
      else if (classifyStep (subRaise i) i p { st with pathId := i }).2 = true then
        (classifyStep (subRaise i) i p { st with pathId := i }).1
      else if width ≠ 0 ∧ width ≤ i then
        (classifyStep (subRaise i) i p { st with pathId := i }).1
      else runLoop sh subRaise width (i + 1)
        (classifyStep (subRaise i) i p { st with pathId := i }).1 rest

/-- The per-test outcome assembled by `run_test` (lines 868, 894, 903-960):
`num_execs = path_id + 1`, a final blocking pool shutdown before the
verdict is classified, and `num_paths = (num_execs, normal, len(stuck))`.
`solverResults` are the results the completion callbacks have collected
into `ctx.solver_outputs` by verdict time. -/
structure TestResultM where
  exitcode : Exitcode
  numPaths : Nat × Nat × Nat
  events : List REv
  deriving DecidableEq

def run_test (sh subRaise : Nat → Bool) (width : Nat)
    (solverResults : List SmtResult) (paths : List PathExec) : TestResultM :=
  let st := runLoop sh subRaise width 0 initialRunState paths
  { exitcode := classifyVerdict solverResults st.stuck.length st.normal
    numPaths := (st.pathId + 1, st.normal, st.stuck.length)
    events := st.events ++ [REv.shutdownBlocking, REv.computeVerdict] }

theorem classifyStep_cases (subRaise : Bool) (i : Nat) (p : PathExec)
    (st : RunState) :
    classifyStep subRaise i p st = ({ st with potential := st.potential + 1 }, true)
    ∨ classifyStep subRaise i p st
        = ({ st with potential := st.potential + 1, events := st.events ++ [REv.submit i] }, false)
    ∨ classifyStep subRaise i p st
        = ({ st with events := st.events ++ [REv.syncSolve i] }, false)
    ∨ classifyStep subRaise i p st
        = ({ st with events := st.events ++ [REv.syncSolve i], stuck := st.stuck ++ [i] }, false)
    ∨ classifyStep subRaise i p st = ({ st with normal := st.normal + 1 }, false)
    ∨ classifyStep subRaise i p st = (st, false) := by
  unfold classifyStep
  by_cases h1 : (p.panicFound || p.failFound) = true
  · rw [if_pos h1]
    by_cases h2 : subRaise = true
    · rw [if_pos h2]
      exact Or.inl rfl
    · rw [if_neg h2]
      exact Or.inr (Or.inl rfl)
  · rw [if_neg h1]
    by_cases h3 : p.isStuck = true
    · rw [if_pos h3]
      by_cases h4 : p.stuckSolveResult = SmtResult.unsat
      · rw [if_pos h4]
        exact Or.inr (Or.inr (Or.inl rfl))
      · rw [if_neg h4]
        exact Or.inr (Or.inr (Or.inr (Or.inl rfl)))
    · rw [if_neg h3]
      by_cases h5 : p.errorOutput = false
      · rw [if_pos h5]
        exact Or.inr (Or.inr (Or.inr (Or.inr (Or.inl rfl))))
      · rw [if_neg h5]
        exact Or.inr (Or.inr (Or.inr (Or.inr (Or.inr rfl))))

theorem classifyStep_pathId (subRaise : Bool) (i : Nat) (p : PathExec)
    (st : RunState) : (classifyStep subRaise i p st).1.pathId = st.pathId := by
  rcases classifyStep_cases subRaise i p st with h | h | h | h | h | h <;>
    rw [h]

theorem classifyStep_nonpotential (subRaise : Bool) (i : Nat) (p : PathExec)
    (st : RunState) (hp : p.panicFound = false) (hf : p.failFound = false) :
    ((classifyStep subRaise i p st).1.events = st.events
      ∨ (classifyStep subRaise i p st).1.events = st.events ++ [REv.syncSolve i])
    ∧ (classifyStep subRaise i p st).2 = false := by
  unfold classifyStep
  rw [hp, hf]
  simp only [Bool.or_self, Bool.false_eq_true, if_false]
  by_cases h3 : p.isStuck = true
  · rw [if_pos h3]
    by_cases h4 : p.stuckSolveResult = SmtResult.unsat
    · rw [if_pos h4]
      exact ⟨Or.inr rfl, rfl⟩
    · rw [if_neg h4]
      exact ⟨Or.inr rfl, rfl⟩
  · rw [if_neg h3]
    by_cases h5 : p.errorOutput = false
    · rw [if_pos h5]
      exact ⟨Or.inl rfl, rfl⟩
    · rw [if_neg h5]
      exact ⟨Or.inl rfl, rfl⟩

theorem runLoop_no_submit (sh subR : Nat → Bool) (width : Nat) :
    ∀ (paths : List PathExec) (n : Nat) (st0 : RunState),
      (∀ q ∈ paths, q.panicFound = false ∧ q.failFound = false) →
      ∃ delta, (runLoop sh subR width n st0 paths).events = st0.events ++ delta ∧
        ∀ j, REv.submit j ∉ delta := by
  intro paths
  induction paths with
  | nil =>
      intro n st0 h
      exact ⟨[], by simp [runLoop], by simp⟩
  | cons p rest ih =>
      intro n st0 h
      rcases h p (List.mem_cons_self p rest) with ⟨hp, hf⟩
      unfold runLoop
      by_cases hsh : sh n = true
      · rw [if_pos hsh]
        exact ⟨[], by simp, by simp⟩
      · rw [if_neg hsh]
        have hcs := classifyStep_nonpotential (subR n) n p { st0 with pathId := n }
          hp hf
        rw [hcs.2]
        simp only [Bool.false_eq_true, if_false]
        have hshape : ∃ d1, (classifyStep (subR n) n p { st0 with pathId := n }).1.events
            = st0.events ++ d1 ∧ ∀ j, REv.submit j ∉ d1 := by
          rcases hcs.1 with hev | hev
          · exact ⟨[], by simpa using hev, by simp⟩
          · exact ⟨[REv.syncSolve n], by simpa using hev, by simp⟩
        rcases hshape with ⟨d1, hd1, hd1n⟩
        by_cases hw : width ≠ 0 ∧ width ≤ n
        · rw [if_pos hw]
          exact ⟨d1, hd1, hd1n⟩
        · rw [if_neg hw]
          rcases ih (n + 1) (classifyStep (subR n) n p { st0 with pathId := n }).1
            (fun q hq => h q (List.mem_cons_of_mem p hq)) with ⟨d2, hd2, hd2n⟩
          refine ⟨d1 ++ d2, ?_, ?_⟩
          · rw [hd2, hd1, List.append_assoc]
          · intro j hj
            rcases List.mem_append.mp hj with hj | hj
            · exact hd1n j hj
            · exact hd2n j hj

/-- C8: a stuck path that is not flagged as a potential assertion
violation is never submitted to the asynchronous pool: the loop performs
exactly one synchronous blocking low-level solve for it, the iteration
never breaks, and the path is recorded as stuck exactly when that solve's
result is not `unsat`; moreover a whole exploration run containing no
potential-violation paths emits no submission event at all. -/
theorem stuck_path_solved_synchronously (i : Nat) (p : PathExec) (st : RunState)
    (subRaise : Bool) (hstuck : p.isStuck = true) (hpanic : p.panicFound = false)
    (hfail : p.failFound = false) :
    ((classifyStep subRaise i p st).1.events = st.events ++ [REv.syncSolve i]
     ∧ (classifyStep subRaise i p st).1.stuck
        = (if p.stuckSolveResult = SmtResult.unsat then st.stuck
           else st.stuck ++ [i])
     ∧ (classifyStep subRaise i p st).2 = false)
    ∧ ∀ (sh subR : Nat → Bool) (width n : Nat) (st0 : RunState)
        (paths : List PathExec),
        (∀ q ∈ paths, q.panicFound = false ∧ q.failFound = false) →
        ∃ delta, (runLoop sh subR width n st0 paths).events = st0.events ++ delta
          ∧ ∀ j, REv.submit j ∉ delta := by
  constructor
  · unfold classifyStep
    rw [hpanic, hfail]
    simp only [Bool.or_self, Bool.false_eq_true, if_false]
    rw [if_pos hstuck]
    by_cases h4 : p.stuckSolveResult = SmtResult.unsat
    · rw [if_pos h4, if_pos h4]
      exact ⟨rfl, rfl, rfl⟩
    · rw [if_neg h4, if_neg h4]
      exact ⟨rfl, rfl, rfl⟩
  · intro sh subR width n st0 paths h
    exact runLoop_no_submit sh subR width paths n st0 h

/-- A concrete stuck, non-potential path for the witness. -/
def stuckPathEx : PathExec :=
  { panicFound := false, failFound := false, isStuck := true,
    errorOutput := true, stuckSolveResult := SmtResult.sat }

theorem stuck_path_solved_synchronously_witness :
    (classifyStep false 0 stuckPathEx initialRunState).1.events
        = initialRunState.events ++ [REv.syncSolve 0]
    ∧ ∃ delta, (runLoop (fun _ => false) (fun _ => false) 0 0 initialRunState
        [stuckPathEx]).events = initialRunState.events ++ delta
      ∧ ∀ j, REv.submit j ∉ delta :=
  ⟨((stuck_path_solved_synchronously 0 stuckPathEx initialRunState false
      rfl rfl rfl).1).1,
   (stuck_path_solved_synchronously 0 stuckPathEx initialRunState false
      rfl rfl rfl).2 (fun _ => false) (fun _ => false) 0 0 initialRunState
      [stuckPathEx] (by decide)⟩

theorem classifyStep_brk_false (i : Nat) (p : PathExec) (st : RunState) :
    (classifyStep false i p st).2 = false := by
  unfold classifyStep
  by_cases h1 : (p.panicFound || p.failFound) = true
  · rw [if_pos h1]
    simp
  · rw [if_neg h1]
    by_cases h3 : p.isStuck = true
    · rw [if_pos h3]
      by_cases h4 : p.stuckSolveResult = SmtResult.unsat
      · rw [if_pos h4]
      · rw [if_neg h4]
    · rw [if_neg h3]
      by_cases h5 : p.errorOutput = false
      · rw [if_pos h5]
      · rw [if_neg h5]

theorem runLoop_pathId_full (sh subR : Nat → Bool)
    (hsh : ∀ i, sh i = false) (hsub : ∀ i, subR i = false) :
    ∀ (paths : List PathExec) (n : Nat) (st0 : RunState), paths ≠ [] →
      (runLoop sh subR 0 n st0 paths).pathId = n + paths.length - 1 := by
  intro paths
  induction paths with
  | nil => intro n st0 h; exact absurd rfl h
  | cons p rest ih =>
      intro n st0 h
      unfold runLoop
      rw [hsh n]
      simp only [Bool.false_eq_true, if_false]
      rw [hsub n, classifyStep_brk_false n p { st0 with pathId := n }]
      simp only [Bool.false_eq_true, if_false]
      have hw : ¬((0 : Nat) ≠ 0 ∧ (0 : Nat) ≤ n) := fun hc => hc.1 rfl
      rw [if_neg hw]
      cases hrest : rest with
      | nil =>
          subst hrest
          simp only [runLoop]
          rw [classifyStep_pathId]
          simp
      | cons q qs =>
          rw [← hrest]
          rw [ih (n + 1) (classifyStep false n p { st0 with pathId := n }).1
            (by rw [hrest]; exact List.cons_ne_nil q qs)]
          simp only [List.length_cons]
          have : rest.length ≠ 0 := by
            rw [hrest]
            simp
          omega

/-- C10: the reported total path count of `run_test` is the last
enumerated path identifier plus one, with `path_id` initialized to 0
before the loop; hence when the exploration generator yields no states,
`num_paths` reports a total of 1 (with 0 normal and 0 stuck) rather than
0, while a fully enumerated nonempty exploration reports exactly the
number of explored paths. -/
theorem run_test_num_paths (sh subRaise : Nat → Bool) (width : Nat)
    (solverResults : List SmtResult) :
    (run_test sh subRaise width solverResults []).numPaths = (1, 0, 0)
    ∧ ∀ paths, paths ≠ [] → (∀ i, sh i = false) → (∀ i, subRaise i = false) →
        width = 0 →
        (run_test sh subRaise width solverResults paths).numPaths.1
          = paths.length := by
  constructor
  · rfl
  · intro paths hne hsh hsub hw
    subst hw
    show (runLoop sh subRaise 0 0 initialRunState paths).pathId + 1 = paths.length
    rw [runLoop_pathId_full sh subRaise hsh hsub paths 0 initialRunState hne]
    have : paths.length ≠ 0 := fun hc => hne (List.length_eq_zero.mp hc)
    omega

theorem run_test_num_paths_witness :
    (run_test (fun _ => false) (fun _ => false) 0 [] []).numPaths = (1, 0, 0)
    ∧ (run_test (fun _ => false) (fun _ => false) 0 []
        [stuckPathEx, stuckPathEx]).numPaths.1 = 2 :=
  ⟨(run_test_num_paths (fun _ => false) (fun _ => false) 0 []).1,
   (run_test_num_paths (fun _ => false) (fun _ => false) 0 []).2
     [stuckPathEx, stuckPathEx] (by simp) (fun _ => rfl) (fun _ => rfl) rfl⟩

/-- Kinds of exception observable on the completed future inside the
completion callback: a ShutdownError from the custom executor, a
cancellation (in which case `future.exception()` itself raises
CancelledError and the callback aborts immediately), or any other error
raised during solving. -/
inductive ExcKind
  | shutdownError
  | cancelled
  | otherError
  deriving DecidableEq

/-- A counterexample model with its validity flag (`model.is_valid`). -/
structure ModelM where
  isValid : Bool
  deriving DecidableEq

/-- A `SolverOutput` as consumed by the completion callback. -/
structure SolverOutputM where
  result : SmtResult
  model : Option ModelM
  unsatCore : Option Nat
  pathId : Nat
  deriving DecidableEq

/-- The per-test solving aggregates touched by the completion callback:
`ctx.solver_outputs`, the valid/invalid counterexample lists, and the
aggregated unsat cores. -/
structure CallbackCtx where
  solverOutputs : List SolverOutputM
  validCexs : List ModelM
  invalidCexs : List ModelM
  unsatCores : List Nat
  deriving DecidableEq

/-- Observable actions of the completion callback. -/
inductive CEv
  | logDebugIgnored
  | logErrorSolving
  | warnUnknown
  | printCex
  | warnInvalidCex
  | shutdownNonBlocking
  | printSequence
  deriving DecidableEq

/-- The completion callback `solve_end_to_end_callback` (lines 704-766):
a ShutdownError on the future is logged at debug level and ignored; any
other solving error is logged, after which re-reading `future.result()`
re-raises it and the callback aborts without touching any aggregate (a
cancelled future aborts at `future.exception()` itself); if the executor
is already shut down the callback returns before recording anything;
otherwise the output is recorded, an unsat result optionally merges its
core, a sat result without a model warns, and a sat result with a model is
appended to the valid or invalid counterexample list by validity — a valid
model additionally requesting a non-blocking pool shutdown when the
early-exit policy is enabled — and a rendered call sequence, when present,
is printed alongside. -/
def solve_end_to_end_callback (earlyExit isShutdown : Bool)
    (exc : Option ExcKind) (out : SolverOutputM) (hasSeq : Bool)
    (st : CallbackCtx) : CallbackCtx × List CEv :=
  match exc with
  | some .cancelled => (st, [])
  | some .shutdownError => (st, [CEv.logDebugIgnored])
  | some .otherError => (st, [CEv.logErrorSolving])
  | none =>
      if isShutdown = true then (st, [])
      else
        if out.result = SmtResult.unsat then
          match out.unsatCore with
          | some c =>
              ({ st with solverOutputs := st.solverOutputs ++ [out], unsatCores := st.unsatCores ++ [c] }, [])
          | none => ({ st with solverOutputs := st.solverOutputs ++ [out] }, [])
        else
          match out.model with
          | none =>
              ({ st with solverOutputs := st.solverOutputs ++ [out] }, [CEv.warnUnknown])
          | some m =>
              if m.isValid = true then
                ({ st with solverOutputs := st.solverOutputs ++ [out], validCexs := st.validCexs ++ [m] },
                 [CEv.printCex]
                   ++ (if earlyExit = true then [CEv.shutdownNonBlocking] else [])
                   ++ (if hasSeq = true then [CEv.printSequence] else []))
              else
                ({ st with solverOutputs := st.solverOutputs ++ [out], invalidCexs := st.invalidCexs ++ [m] },
                 [CEv.warnInvalidCex]
                   ++ (if hasSeq = true then [CEv.printSequence] else []))

/-- C9: in the solver-completion callback, a shut-down pool or a cancelled
submission makes the callback return without recording any solver output,
appending any counterexample, or affecting the verdict; and a solving
error is logged and otherwise leaves every aggregate unchanged, so it
cannot affect the test verdict beyond being logged. -/
theorem callback_shutdown_error_ignored (earlyExit : Bool)
    (out : SolverOutputM) (hasSeq : Bool) (st : CallbackCtx) :
    solve_end_to_end_callback earlyExit true none out hasSeq st = (st, [])
    ∧ (∀ isShutdown, solve_end_to_end_callback earlyExit isShutdown
        (some ExcKind.cancelled) out hasSeq st = (st, []))
    ∧ (∀ isShutdown, solve_end_to_end_callback earlyExit isShutdown
        (some ExcKind.shutdownError) out hasSeq st = (st, [CEv.logDebugIgnored]))
    ∧ (∀ isShutdown, solve_end_to_end_callback earlyExit isShutdown
        (some ExcKind.otherError) out hasSeq st = (st, [CEv.logErrorSolving])) :=
  ⟨rfl, fun _ => rfl, fun _ => rfl, fun _ => rfl⟩

/-- C4: when a valid counterexample is recorded and the early-exit policy
is enabled, the completion callback requests a non-blocking shutdown of
the test's solver pool; and regardless of inputs — in particular whether
early exit was triggered — the `run_test` event trace contains the final
blocking pool shutdown strictly before the verdict computation. -/
theorem early_exit_and_blocking_shutdown (out : SolverOutputM) (m : ModelM)
    (hasSeq : Bool) (st : CallbackCtx) (hr : out.result = SmtResult.sat)
    (hm : out.model = some m) (hv : m.isValid = true) :
    (CEv.shutdownNonBlocking
        ∈ (solve_end_to_end_callback true false none out hasSeq st).2
     ∧ (solve_end_to_end_callback true false none out hasSeq st).1.validCexs
        = st.validCexs ++ [m])
    ∧ ∀ (sh subRaise : Nat → Bool) (width : Nat)
        (solverResults : List SmtResult) (paths : List PathExec),
        ∃ l1 l2, (run_test sh subRaise width solverResults paths).events
            = l1 ++ REv.shutdownBlocking :: l2
          ∧ REv.computeVerdict ∈ l2 := by
  constructor
  · have hne : ¬out.result = SmtResult.unsat := by
      rw [hr]
      intro hc
      cases hc
    constructor
    · simp only [solve_end_to_end_callback, if_neg (by simp : ¬(false = true)),
        if_neg hne, hm, if_pos hv]
      simp
    · simp only [solve_end_to_end_callback, if_neg (by simp : ¬(false = true)),
        if_neg hne, hm, if_pos hv]
  · intro sh subRaise width solverResults paths
    exact ⟨(runLoop sh subRaise width 0 initialRunState paths).events,
      [REv.computeVerdict], rfl, List.mem_singleton_self _⟩

/-- A concrete satisfiable solver output with a valid model for the
witness. -/
def outSatValid : SolverOutputM :=
  { result := SmtResult.sat, model := some { isValid := true },
    unsatCore := none, pathId := 0 }

/-- The empty per-test solving aggregate for the witness. -/
def cbCtx0 : CallbackCtx :=
  { solverOutputs := [], validCexs := [], invalidCexs := [], unsatCores := [] }

theorem early_exit_and_blocking_shutdown_witness :
    CEv.shutdownNonBlocking
        ∈ (solve_end_to_end_callback true false none outSatValid false cbCtx0).2
    ∧ ∃ l1 l2, (run_test (fun _ => false) (fun _ => false) 0 [] []).events
        = l1 ++ REv.shutdownBlocking :: l2 ∧ REv.computeVerdict ∈ l2 :=
  ⟨((early_exit_and_blocking_shutdown outSatValid { isValid := true } false cbCtx0
      rfl rfl rfl).1).1,
   (early_exit_and_blocking_shutdown outSatValid { isValid := true } false cbCtx0
      rfl rfl rfl).2 (fun _ => false) (fun _ => false) 0 [] []⟩
